import Mathlib

/-!
Verification of the factor-algebra specification of the pygmalion repository
against its source. The repository ships the notebook `src/examples/Alarm.ipynb`
(whose recorded outputs are embedded below as data); the module `alarm_network`
implementing the algebra is not part of the source tree, so the operations
`Joint`, `Marginal`, `Observe` and the `Factor` data type are modelled from the
specification and checked against the notebook's recorded tables.

Probability values are represented exactly as rationals (ℚ); variable values
are a type parameter `V` (the alarm network uses `Bool`).
-/

namespace Pygmalion

/-- A variable is identified by its name. -/
abbrev VarName := String

/-- An ordered scope: each variable name paired with its ordered Domain. -/
abbrev Scope (V : Type) := List (VarName × List V)

/-- An assignment as a partial map from variable names to values
(`none` means the variable is not assigned). -/
abbrev Assignment (V : Type) := VarName → Option V

/-- Look a name up in an association list of (name, value) pairs
(first match wins, as in a duplicate-free mapping). -/
def lookupA {V : Type} : List (VarName × V) → Assignment V
  | [], _ => none
  | p :: l, n => if p.1 = n then some p.2 else lookupA l n

/-- Restrict an assignment to a set of names: outside the names it is `none`. -/
def restrict {V : Type} (names : List VarName) (m : Assignment V) : Assignment V :=
  fun n => if n ∈ names then m n else none

/-- Modelled from the spec: canonical enumeration of all full assignments of a
scope, as association lists aligned with the scope order — nested iteration
with the first scope variable varying slowest and the last varying fastest,
each variable running through its Domain in declared order (§4.2 `entries()`).
The implementation (`alarm_network` module) is absent from the source tree. -/
def tuples {V : Type} : Scope V → List (List (VarName × V))
  | [] => [[]]
  | (n, d) :: rest => d.flatMap (fun v => (tuples rest).map (fun a => (n, v) :: a))

/-- Number of full assignments of a scope: the product of the domain sizes. -/
def sizeProd {V : Type} : Scope V → Nat
  | [] => 1
  | p :: rest => p.2.length * sizeProd rest

/-- Modelled from the spec: a Factor is an ordered scope (each variable with its
Domain) together with its value table, represented as a function of
assignments (§3, §4.2). The implementation is absent from the source tree. -/
structure Factor (V : Type) where
  scope : Scope V
  val : Assignment V → ℚ

variable {V : Type}

/-- The ordered scope variable names of a factor. -/
def Factor.names (F : Factor V) : List VarName := F.scope.map Prod.fst

/-- Well-formedness invariants of §3: scope names are unique and every
Domain is duplicate-free. -/
def Factor.WF (F : Factor V) : Prop :=
  F.names.Nodup ∧ ∀ p ∈ F.scope, p.2.Nodup

/-- Modelled from the spec: `entries()` — the finite, restartable sequence of
(assignment, value) pairs in canonical enumeration order (§4.2). -/
def Factor.entries (F : Factor V) : List (List (VarName × V) × ℚ) :=
  (tuples F.scope).map (fun a => (a, F.val (lookupA a)))

/-- Calling a factor with keyword-named values: the arguments form a
name-to-value mapping and the table is consulted at that mapping. -/
def Factor.callKW (F : Factor V) (l : List (VarName × V)) : ℚ :=
  F.val (lookupA l)

/-- Joint's acceptance condition (§4.4): any variable name shared by the two
scopes must carry the same Domain (same values, same order); otherwise the
operation fails with `ScopeCollision`. -/
def jointOK (A B : Factor V) : Prop :=
  ∀ p ∈ A.scope, ∀ q ∈ B.scope, p.1 = q.1 → p.2 = q.2

/-- Modelled from the spec: the scope of `Joint(A,B)` — the first factor's
scope in order, then the second factor's variables not already present, in
order (§4.4). The implementation is absent from the source tree. -/
def jointScope (A B : Factor V) : Scope V :=
  A.scope ++ B.scope.filter (fun p => decide (p.1 ∉ A.names))

/-- Modelled from the spec: `Joint` — the chain-rule product; at every
assignment the value is `A.valueAt(restriction to scope(A)) *
B.valueAt(restriction to scope(B))` (§4.4). The implementation is absent
from the source tree. -/
def Joint (A B : Factor V) : Factor V :=
  ⟨jointScope A B,
   fun m => A.val (restrict A.names m) * B.val (restrict B.names m)⟩

/-! ### Concrete factors recorded in `src/examples/Alarm.ipynb`

Cell-5 of the notebook prints `CP_Radio`'s full table. The priors are pinned
exactly by the recorded derived tables: cell-7 (`P_RS` = 0.009, 0.001, 0.099,
0.891) forces P(S=true) = 0.01, and the recorded `P_DSRAW` table (cell-13)
forces P(D=true) = 0.001. -/

/-- The storm prior `P_Sturm` of the alarm network, as pinned by the recorded
tables of the notebook: P(S=true) = 0.01, P(S=false) = 0.99. -/
def P_Sturm : Factor Bool :=
  ⟨[("S", [true, false])],
   fun m => if m "S" = some true then 0.01 else 0.99⟩

/-- The burglar prior `P_Dieb` of the alarm network, as pinned by the recorded
`P_DSRAW` table: P(D=true) = 0.001. -/
def P_Dieb : Factor Bool :=
  ⟨[("D", [true, false])],
   fun m => if m "D" = some true then 0.001 else 0.999⟩

/-- The conditional table `CP_Radio` = P(R | S), scope order (R, S), exactly as
printed by cell-5 of the notebook: 0.9 when R = S, otherwise 0.1. -/
def CP_Radio : Factor Bool :=
  ⟨[("R", [true, false]), ("S", [true, false])],
   fun m => if m "R" = m "S" then 0.9 else 0.1⟩

/-- The storm prior exactly as claim C1 states it (P(S=true) = 0.1,
P(S=false) = 0.9) — used to refute the claim's concrete scenario. -/
def P_S_claimed : Factor Bool :=
  ⟨[("S", [true, false])],
   fun m => if m "S" = some true then 0.1 else 0.9⟩

/-- A factor giving probability 0 to X=true — evidence X=true then has zero
prior probability, the `ZeroEvidence` situation of §7. -/
def P_Null : Factor Bool :=
  ⟨[("X", [true, false])],
   fun m => if m "X" = some true then 0 else 1⟩

/-! ### Recorded run of cell-18 (`P_postA_DW`)

Cell-18 computes `Joint(Marginal(P_postA, 'D'), Marginal(P_postA, 'W'))` with
`P_postA = Observe(P_DSRAW, A=True)` and prints the scope header `W, D`: the
first operand ranges over D alone and the second over W alone, yet the printed
scope puts W first (the values confirm the reading: the printed entry at
(True, False) is 0.848659 = P(W=true|A=true) * P(D=false|A=true), which is not
a possible product for the (D, W) reading). The exact conditional marginals
are forced by the recorded `P_DSRAW` table: P(A=true) = 0.0157856 with
P(A=true, D=true) = 0.0009005, and P(W=true | A=true) = 0.9. -/

/-- The recorded scope header of `PrintTable(P_postA_DW)` in cell-18. -/
def P_postA_DW_recordedNames : List VarName := ["W", "D"]

/-- The first operand of the cell-18 `Joint` call: `Marginal(P_postA, 'D')`,
the posterior of D given A=true, with the exact values forced by the recorded
`P_DSRAW` table. -/
def M_postA_D : Factor Bool :=
  ⟨[("D", [true, false])],
   fun m => if m "D" = some true then 9005 / 157856 else 148851 / 157856⟩

/-- The second operand of the cell-18 `Joint` call: `Marginal(P_postA, 'W')`,
the posterior of W given A=true, with the exact values forced by the recorded
`P_DSRAW` table. -/
def M_postA_W : Factor Bool :=
  ⟨[("W", [true, false])],
   fun m => if m "W" = some true then 9 / 10 else 1 / 10⟩

/-! ### Basic lemmas about lookups, restriction and enumeration -/

theorem lookupA_filter (g : VarName → Bool) (l : List (VarName × V)) (n : VarName) :
    lookupA (l.filter (fun p => g p.1)) n = if g n then lookupA l n else none := by
  induction l with
  | nil => simp [lookupA, ite_self]
  | cons p l ih =>
    by_cases hp : p.1 = n
    · subst hp
      cases hgp : g p.1 with
      | true => simp [List.filter_cons, hgp, lookupA]
      | false => simp [List.filter_cons, hgp, ih, lookupA]
    · cases hgp : g p.1 with
      | true => simp [List.filter_cons, hgp, lookupA, hp, ih]
      | false => simp [List.filter_cons, hgp, lookupA, hp, ih]

theorem restrict_lookupA (names : List VarName) (a : List (VarName × V)) :
    restrict names (lookupA a) = lookupA (a.filter (fun p => decide (p.1 ∈ names))) := by
  funext n
  rw [lookupA_filter (fun x => decide (x ∈ names))]
  by_cases hn : n ∈ names <;> simp [restrict, hn]

theorem restrict_restrict {n1 n2 : List VarName} (h : ∀ x ∈ n1, x ∈ n2)
    (m : Assignment V) :
    restrict n1 (restrict n2 m) = restrict n1 m := by
  funext n
  by_cases hn : n ∈ n1 <;> simp [restrict, hn]
  intro hn2
  exact absurd (h n hn) hn2

/-- A full assignment of a scope: the names line up with the scope in order and
every value lies in its variable's Domain. -/
def IsFull (scope : Scope V) (a : List (VarName × V)) : Prop :=
  List.Forall₂ (fun (p : VarName × List V) (q : VarName × V) => q.1 = p.1 ∧ q.2 ∈ p.2)
    scope a

theorem mem_tuples_iff {scope : Scope V} {a : List (VarName × V)} :
    a ∈ tuples scope ↔ IsFull scope a := by
  induction scope generalizing a with
  | nil =>
    simp [tuples, IsFull, List.forall₂_nil_left_iff]
  | cons p rest ih =>
    obtain ⟨n, d⟩ := p
    simp only [tuples, List.mem_flatMap, List.mem_map]
    constructor
    · rintro ⟨v, hv, b, hb, rfl⟩
      exact List.Forall₂.cons ⟨rfl, hv⟩ (ih.mp hb)
    · intro h
      cases h with
      | cons hq hrest =>
        rename_i q a'
        obtain ⟨q1, q2⟩ := q
        obtain ⟨hq1, hq2⟩ := hq
        cases hq1
        exact ⟨q2, hq2, a', ih.mpr hrest, rfl⟩

theorem fst_of_full {scope : Scope V} {a : List (VarName × V)} (h : IsFull scope a) :
    a.map Prod.fst = scope.map Prod.fst := by
  induction h with
  | nil => rfl
  | cons hq hrest ih => simp [ih, hq.1]

theorem isFull_filter (g : VarName → Bool) {scope : Scope V} {a : List (VarName × V)}
    (h : IsFull scope a) :
    IsFull (scope.filter (fun p => g p.1)) (a.filter (fun q => g q.1)) := by
  induction h with
  | nil => exact List.Forall₂.nil
  | cons hq hrest ih =>
    rename_i p q l1 l2
    rw [List.filter_cons, List.filter_cons, hq.1]
    cases g p.1 with
    | true => exact List.Forall₂.cons hq ih
    | false => exact ih

theorem sum_map_const {α : Type} (l : List α) (k : Nat) :
    (l.map (fun _ => k)).sum = l.length * k := by
  induction l with
  | nil => simp
  | cons x l ih => simp [ih, Nat.succ_mul, Nat.add_comm]

theorem tuples_length (scope : Scope V) : (tuples scope).length = sizeProd scope := by
  induction scope with
  | nil => rfl
  | cons p rest ih =>
    obtain ⟨n, d⟩ := p
    simp only [tuples, sizeProd, List.length_flatMap]
    have hfn : (List.length ∘ fun v : V => (tuples rest).map (fun a => (n, v) :: a))
        = fun _ => sizeProd rest := by
      funext v; simp [ih]
    rw [hfn]
    exact sum_map_const d (sizeProd rest)

theorem tuples_nodup {scope : Scope V} (h : ∀ p ∈ scope, p.2.Nodup) :
    (tuples scope).Nodup := by
  induction scope with
  | nil => simp [tuples]
  | cons p rest ih =>
    obtain ⟨n, d⟩ := p
    have hd : d.Nodup := h (n, d) (List.mem_cons_self _ _)
    have hrest : (tuples rest).Nodup := ih (fun q hq => h q (List.mem_cons_of_mem _ hq))
    simp only [tuples]
    rw [List.nodup_flatMap]
    refine ⟨fun v _ => hrest.map (fun a b hab => by injection hab), ?_⟩
    refine hd.pairwise_of_forall_ne (fun v hv w hw hvw => ?_)
    intro x hx hy
    simp only [List.mem_map] at hx hy
    obtain ⟨a, _, rfl⟩ := hx
    obtain ⟨b, _, hb⟩ := hy
    injection hb with h1 h2
    exact hvw (by injection h1 with h1a h1b; exact h1b.symm)

/-! ### Position of an element in a list, and the canonical rank of a full
assignment (mixed-radix, first variable most significant) -/

/-- Position of the first occurrence of `x` in a list (length of the list if
absent). -/
def posIn {α : Type} [DecidableEq α] (x : α) : List α → Nat
  | [] => 0
  | y :: l => if y = x then 0 else posIn x l + 1

/-- The canonical rank of a full assignment: mixed-radix value of the
per-variable domain positions, the first scope variable most significant
(varying slowest), the last least significant (varying fastest). -/
def rank {V : Type} [DecidableEq V] : Scope V → List (VarName × V) → Nat
  | [], _ => 0
  | _ :: _, [] => 0
  | (_, d) :: rest, q :: a => posIn q.2 d * sizeProd rest + rank rest a

theorem posIn_append_left {α : Type} [DecidableEq α] {x : α} {l1 : List α}
    (l2 : List α) (h : x ∈ l1) : posIn x (l1 ++ l2) = posIn x l1 := by
  induction l1 with
  | nil => cases h
  | cons y l ih =>
    by_cases hy : y = x
    · simp [posIn, hy]
    · have hx : x ∈ l := by
        cases h with
        | head => exact absurd rfl hy
        | tail _ h => exact h
      simp [posIn, hy, ih hx]

theorem posIn_append_right {α : Type} [DecidableEq α] {x : α} {l1 : List α}
    (l2 : List α) (h : x ∉ l1) : posIn x (l1 ++ l2) = l1.length + posIn x l2 := by
  induction l1 with
  | nil => simp
  | cons y l ih =>
    have hy : y ≠ x := fun hxy => h (hxy ▸ List.mem_cons_self y l)
    have hx : x ∉ l := fun hxl => h (List.mem_cons_of_mem _ hxl)
    simp [posIn, hy, ih hx]
    omega

theorem posIn_map {α β : Type} [DecidableEq α] [DecidableEq β] {f : α → β}
    (hf : ∀ a b, f a = f b → a = b) (x : α) (l : List α) :
    posIn (f x) (l.map f) = posIn x l := by
  induction l with
  | nil => rfl
  | cons y l ih =>
    by_cases hy : y = x
    · simp [posIn, hy]
    · have : f y ≠ f x := fun h => hy (hf _ _ h)
      simp [posIn, hy, this, ih]

theorem posIn_flatMap_blocks {V : Type} [DecidableEq V] (n : VarName) (v : V)
    (a' : List (VarName × V)) (bs : List (List (VarName × V))) (d : List V)
    (hv : v ∈ d) (ha' : a' ∈ bs) :
    posIn ((n, v) :: a') (d.flatMap (fun w => bs.map (fun b => (n, w) :: b)))
      = posIn v d * bs.length + posIn a' bs := by
  induction d with
  | nil => cases hv
  | cons w ds ih =>
    simp only [List.flatMap_cons]
    by_cases hw : w = v
    · subst hw
      rw [posIn_append_left _ (List.mem_map.mpr ⟨a', ha', rfl⟩)]
      rw [posIn_map (fun a b hab => by injection hab)]
      simp [posIn]
    · have hnot : ((n, v) :: a') ∉ bs.map (fun b => (n, w) :: b) := by
        intro hmem
        obtain ⟨b, _, hb⟩ := List.mem_map.mp hmem
        injection hb with h1 _
        injection h1 with _ h1b
        exact hw h1b
      have hvds : v ∈ ds := by
        cases hv with
        | head => exact absurd rfl hw
        | tail _ h => exact h
      rw [posIn_append_right _ hnot, List.length_map, ih hvds]
      have : posIn v (w :: ds) = posIn v ds + 1 := by simp [posIn, hw]
      rw [this]
      ring

/-- The canonical enumeration lists a full assignment at exactly its
mixed-radix rank: the first scope variable varies slowest, the last fastest. -/
theorem posIn_tuples {V : Type} [DecidableEq V] {scope : Scope V}
    {a : List (VarName × V)} (h : IsFull scope a) :
    posIn a (tuples scope) = rank scope a := by
  induction h with
  | nil => rfl
  | cons hq hrest ih =>
    rename_i p q rest a'
    obtain ⟨n, d⟩ := p
    obtain ⟨q1, q2⟩ := q
    obtain ⟨hq1, hq2⟩ := hq
    cases hq1
    have ha' : a' ∈ tuples rest := mem_tuples_iff.mpr hrest
    simp only [tuples, rank]
    rw [posIn_flatMap_blocks n q2 a' (tuples rest) d hq2 ha', tuples_length, ih]

/-! ### Lookup characterizations and agreement of full assignments -/

theorem lookupA_eq_none_iff {l : List (VarName × V)} {n : VarName} :
    lookupA l n = none ↔ n ∉ l.map Prod.fst := by
  induction l with
  | nil => simp [lookupA]
  | cons p l ih =>
    rw [lookupA]
    by_cases hp : p.1 = n
    · subst hp; simp
    · rw [if_neg hp, ih]
      simp only [List.map_cons, List.mem_cons]
      constructor
      · intro h hmem
        cases hmem with
        | inl he => exact hp he.symm
        | inr hm => exact h hm
      · intro h hm
        exact h (Or.inr hm)

theorem mem_of_lookupA {l : List (VarName × V)} {n : VarName} {v : V}
    (h : lookupA l n = some v) : (n, v) ∈ l := by
  induction l with
  | nil => simp [lookupA] at h
  | cons p l ih =>
    obtain ⟨p1, p2⟩ := p
    by_cases hp : p1 = n
    · rw [lookupA, if_pos hp] at h
      injection h with h
      subst hp
      subst h
      exact List.mem_cons_self _ _
    · rw [lookupA, if_neg hp] at h
      exact List.mem_cons_of_mem _ (ih h)

theorem lookupA_of_mem {l : List (VarName × V)} {n : VarName} {v : V}
    (hnd : (l.map Prod.fst).Nodup) (h : (n, v) ∈ l) : lookupA l n = some v := by
  induction l with
  | nil => cases h
  | cons p l ih =>
    simp only [List.map_cons, List.nodup_cons] at hnd
    cases h with
    | head => simp [lookupA]
    | tail _ hmem =>
      have hp : p.1 ≠ n := by
        intro hpn
        exact hnd.1 (hpn ▸ List.mem_map.mpr ⟨(n, v), hmem, rfl⟩)
      rw [lookupA, if_neg hp]
      exact ih hnd.2 hmem

/-- Two association lists that are permutations of each other with
duplicate-free names define the same lookup mapping. -/
theorem lookupA_perm {l l' : List (VarName × V)} (hp : l.Perm l')
    (hnd : (l.map Prod.fst).Nodup) : lookupA l = lookupA l' := by
  have hnd' : (l'.map Prod.fst).Nodup := ((hp.map Prod.fst).nodup_iff).mp hnd
  funext n
  cases hl' : lookupA l' n with
  | none =>
    rw [lookupA_eq_none_iff] at hl' ⊢
    exact fun hmem => hl' ((hp.map Prod.fst).mem_iff.mp hmem)
  | some v =>
    exact lookupA_of_mem hnd (hp.mem_iff.mpr (mem_of_lookupA hl'))

theorem lookupA_self {scope : Scope V} (hn : (scope.map Prod.fst).Nodup)
    {a : List (VarName × V)} (ha : IsFull scope a) :
    ∀ p ∈ a, lookupA a p.1 = some p.2 := by
  intro p hp
  have hnd : (a.map Prod.fst).Nodup := by rw [fst_of_full ha]; exact hn
  exact lookupA_of_mem hnd (by cases p; exact hp)

/-- Over a duplicate-free scope, a full assignment `b` agrees pointwise with
the lookup of a full assignment `a` exactly when the two are equal. -/
theorem agree_iff_eq {scope : Scope V} (hn : (scope.map Prod.fst).Nodup)
    {a b : List (VarName × V)} (ha : IsFull scope a) (hb : IsFull scope b) :
    (∀ p ∈ b, lookupA a p.1 = some p.2) ↔ b = a := by
  constructor
  · intro h
    have hfa := fst_of_full ha
    have hfb := fst_of_full hb
    have hnd : (a.map Prod.fst).Nodup := by rw [hfa]; exact hn
    -- pointwise: extensional equality of association lists with equal key order
    induction scope generalizing a b with
    | nil =>
      cases ha
      cases hb
      rfl
    | cons p rest ih =>
      cases ha with
      | cons hqa hresta =>
        cases hb with
        | cons hqb hrestb =>
          rename_i qa a' qb b'
          obtain ⟨qa1, qa2⟩ := qa
          obtain ⟨qb1, qb2⟩ := qb
          obtain ⟨hqa1, hqa2⟩ := hqa
          obtain ⟨hqb1, hqb2⟩ := hqb
          cases hqa1
          cases hqb1
          simp only [List.map_cons, List.nodup_cons] at hn hnd
          have hhead := h (p.1, qb2) (List.mem_cons_self _ _)
          rw [lookupA, if_pos rfl] at hhead
          injection hhead with hhead
          cases hhead
          have htail : ∀ q ∈ b', lookupA a' q.1 = some q.2 := by
            intro q hq
            have hq1 : q.1 ∈ rest.map Prod.fst := by
              rw [← fst_of_full hrestb]
              exact List.mem_map.mpr ⟨q, hq, rfl⟩
            have hne : p.1 ≠ q.1 := fun he => hn.1 (he ▸ hq1)
            have := h q (List.mem_cons_of_mem _ hq)
            rwa [lookupA, if_neg hne] at this
          rw [ih hn.2 hresta hrestb htail (fst_of_full hresta) (fst_of_full hrestb)
            (by simpa using hnd.2)]
  · rintro rfl
    exact lookupA_self hn hb

/-- In a duplicate-free list, filtering for equality with a member yields
exactly that one element. -/
theorem filter_eq_single {α : Type} [DecidableEq α] {l : List α} (hl : l.Nodup)
    {a : α} (ha : a ∈ l) :
    l.filter (fun x => decide (x = a)) = [a] := by
  induction l with
  | nil => cases ha
  | cons y l ih =>
    simp only [List.nodup_cons] at hl
    rw [List.filter_cons]
    by_cases hy : y = a
    · subst hy
      have : l.filter (fun x => decide (x = y)) = [] := by
        rw [List.filter_eq_nil_iff]
        intro b hb
        simp only [decide_eq_true_eq]
        intro hby
        exact hl.1 (hby ▸ hb)
      simp [this]
    · have ha' : a ∈ l := by
        cases ha with
        | head => exact absurd rfl hy
        | tail _ h => exact h
      simp [hy, ih hl.2 ha']

/-- The scope names of a Joint: the first operand's names, then the second
operand's names not already present. -/
theorem joint_names (A B : Factor V) :
    (Joint A B).names
      = A.names ++ B.names.filter (fun n => decide (n ∉ A.names)) := by
  simp only [Joint, Factor.names, jointScope, List.map_append]
  congr 1
  induction B.scope with
  | nil => rfl
  | cons p l ih =>
    rw [List.filter_cons, List.map_cons, List.filter_cons]
    cases hgp : decide (p.1 ∉ List.map Prod.fst A.scope) with
    | true => simpa using congrArg (List.cons p.1) ih
    | false => simpa using ih

theorem entries_fst (F : Factor V) : F.entries.map Prod.fst = tuples F.scope := by
  rw [Factor.entries, List.map_map]
  exact List.map_id _

theorem entries_snd (F : Factor V) :
    F.entries.map Prod.snd = (tuples F.scope).map (fun a => F.val (lookupA a)) := by
  simp [Factor.entries, List.map_map, Function.comp]

theorem joint_val (A B : Factor V) (m : Assignment V) :
    (Joint A B).val m = A.val (restrict A.names m) * B.val (restrict B.names m) := rfl

theorem subset_joint_left (A B : Factor V) : ∀ x ∈ A.names, x ∈ (Joint A B).names := by
  intro x hx
  rw [joint_names]
  exact List.mem_append_left _ hx

theorem subset_joint_right (A B : Factor V) : ∀ x ∈ B.names, x ∈ (Joint A B).names := by
  intro x hx
  rw [joint_names]
  by_cases hA : x ∈ A.names
  · exact List.mem_append_left _ hA
  · exact List.mem_append_right _ (List.mem_filter.mpr ⟨hx, decide_eq_true hA⟩)

theorem mem_joint_names_iff (A B : Factor V) (n : VarName) :
    n ∈ (Joint A B).names ↔ (n ∈ A.names ∨ n ∈ B.names) := by
  rw [joint_names]
  simp only [List.mem_append, List.mem_filter, decide_eq_true_eq]
  constructor
  · rintro (h | ⟨h, _⟩)
    · exact Or.inl h
    · exact Or.inr h
  · rintro (h | h)
    · exact Or.inl h
    · by_cases hA : n ∈ A.names
      · exact Or.inl hA
      · exact Or.inr ⟨h, hA⟩

theorem bool_eq_of_iff {a b : Bool} (h : (a = true) ↔ (b = true)) : a = b := by
  cases a <;> cases b <;> simp_all

variable [DecidableEq V]

/-- Modelled from the spec: `Marginal` — group all assignments of the original
scope by their restriction to the retained variables and sum each group; the
result scope keeps the retained variables in their original relative order
(§4.5). The implementation is absent from the source tree. -/
def Marginal (F : Factor V) (keep : List VarName) : Factor V :=
  ⟨F.scope.filter (fun p => decide (p.1 ∈ keep)),
   fun m =>
     (((tuples F.scope).filter
        (fun c => (c.filter (fun p => decide (p.1 ∈ keep))).all
          (fun p => decide (m p.1 = some p.2)))).map
       (fun c => F.val (lookupA c))).sum⟩

/-- The error kinds of §7 that the modelled `Observe` can report. -/
inductive PygErr where
  | unknownVariable
  | domainMismatch
  | zeroEvidence
  deriving DecidableEq

/-- The Domain attached to a name in a factor's scope (empty if absent). -/
def Factor.domOf (F : Factor V) (n : VarName) : List V :=
  ((F.scope.find? (fun p => decide (p.1 = n))).map Prod.snd).getD []

/-- Modelled from the spec: the normalizing constant `Z` of `Observe` — the
sum of the factor's values over all full assignments matching the evidence
(§4.6). The implementation is absent from the source tree. -/
def evZ (F : Factor V) (ev : List (VarName × V)) : ℚ :=
  (((tuples F.scope).filter
      (fun c => ev.all (fun p => decide (lookupA c p.1 = some p.2)))).map
    (fun c => F.val (lookupA c))).sum

/-- Modelled from the spec: `Observe` — check the evidence names and values,
restrict the table to the assignments matching the evidence, drop the evidence
variables from the scope, and divide by the normalizing constant `Z`; if `Z`
is zero fail with `ZeroEvidence` (§4.6). The implementation is absent from
the source tree. -/
def Observe (F : Factor V) (ev : List (VarName × V)) : Except PygErr (Factor V) :=
  if ¬ ev.all (fun p => decide (p.1 ∈ F.names)) then .error .unknownVariable
  else if ¬ ev.all (fun p => decide (p.2 ∈ F.domOf p.1)) then .error .domainMismatch
  else if evZ F ev = 0 then .error .zeroEvidence
  else .ok ⟨F.scope.filter (fun p => decide (p.1 ∉ ev.map Prod.fst)),
            fun m => F.val (fun n =>
              if n ∈ ev.map Prod.fst then lookupA ev n else m n) / evZ F ev⟩

instance (A B : Factor V) : Decidable (jointOK A B) :=
  decidable_of_iff (∀ p ∈ A.scope, ∀ q ∈ B.scope, p.1 = q.1 → p.2 = q.2) Iff.rfl

instance (F : Factor V) : Decidable F.WF :=
  decidable_of_iff (F.names.Nodup ∧ ∀ p ∈ F.scope, p.2.Nodup) Iff.rfl

/-! ### Core lemmas about Marginal and Observe -/

/-- The value of a Marginal at a full assignment of its scope is the sum of
the original values over exactly the full assignments whose restriction to
the retained variables equals it. -/
theorem marginal_val (F : Factor V) (keep : List VarName) (hWF : F.WF)
    {a : List (VarName × V)} (ha : a ∈ tuples (Marginal F keep).scope) :
    (Marginal F keep).val (lookupA a)
      = (((tuples F.scope).filter
           (fun c => decide (c.filter (fun p => decide (p.1 ∈ keep)) = a))).map
          (fun c => F.val (lookupA c))).sum := by
  have hsub : ((F.scope.filter (fun p => decide (p.1 ∈ keep))).map Prod.fst).Nodup :=
    ((List.filter_sublist F.scope).map Prod.fst).nodup hWF.1
  have hfa : IsFull (F.scope.filter (fun p => decide (p.1 ∈ keep))) a :=
    mem_tuples_iff.mp ha
  simp only [Marginal]
  congr 1
  congr 1
  apply List.filter_congr
  intro c hc
  have hfc : IsFull (F.scope.filter (fun p => decide (p.1 ∈ keep)))
      (c.filter (fun q => decide (q.1 ∈ keep))) :=
    isFull_filter (fun x => decide (x ∈ keep)) (mem_tuples_iff.mp hc)
  apply bool_eq_of_iff
  rw [List.all_eq_true, decide_eq_true_eq]
  constructor
  · intro h
    exact (agree_iff_eq hsub hfa hfc).mp
      (fun p hp => by
        have := h p hp
        rwa [decide_eq_true_eq] at this)
  · intro h p hp
    rw [decide_eq_true_eq]
    exact (agree_iff_eq hsub hfa hfc).mpr h p hp

theorem observe_ok (F : Factor V) (ev : List (VarName × V))
    (h1 : ∀ p ∈ ev, p.1 ∈ F.names) (h2 : ∀ p ∈ ev, p.2 ∈ F.domOf p.1)
    (hZ : evZ F ev ≠ 0) :
    ∃ G, Observe F ev = .ok G ∧
      G.scope = F.scope.filter (fun p => decide (p.1 ∉ ev.map Prod.fst)) ∧
      ∀ m : Assignment V, G.val m
        = F.val (fun n => if n ∈ ev.map Prod.fst then lookupA ev n else m n)
            / evZ F ev := by
  have hb1 : ev.all (fun p => decide (p.1 ∈ F.names)) = true := by
    rw [List.all_eq_true]
    intro p hp
    exact decide_eq_true (h1 p hp)
  have hb2 : ev.all (fun p => decide (p.2 ∈ F.domOf p.1)) = true := by
    rw [List.all_eq_true]
    intro p hp
    exact decide_eq_true (h2 p hp)
  rw [Observe, if_neg (by simp [hb1]), if_neg (by simp [hb2]), if_neg hZ]
  exact ⟨_, rfl, rfl, fun m => rfl⟩

theorem observe_zero_iff (F : Factor V) (ev : List (VarName × V))
    (h1 : ∀ p ∈ ev, p.1 ∈ F.names) (h2 : ∀ p ∈ ev, p.2 ∈ F.domOf p.1) :
    Observe F ev = .error .zeroEvidence ↔ evZ F ev = 0 := by
  have hb1 : ev.all (fun p => decide (p.1 ∈ F.names)) = true := by
    rw [List.all_eq_true]
    intro p hp
    exact decide_eq_true (h1 p hp)
  have hb2 : ev.all (fun p => decide (p.2 ∈ F.domOf p.1)) = true := by
    rw [List.all_eq_true]
    intro p hp
    exact decide_eq_true (h2 p hp)
  rw [Observe, if_neg (by simp [hb1]), if_neg (by simp [hb2])]
  by_cases hZ : evZ F ev = 0
  · simp [hZ]
  · simp [hZ]

/-! ### Claim theorems -/

/-- C1 (counterexample): with the storm prior exactly as the claim states it,
P(S=true) = 0.1 and P(S=false) = 0.9, the value of
`Joint(P_S, CP_R_given_S)` at (S=true, R=true) is 0.09, not the 0.009 the
claim asserts — the claim's concrete scenario is refuted at this input. -/
theorem C1_counterexample :
    ¬ ((Joint P_S_claimed CP_Radio).val (lookupA [("S", true), ("R", true)]) = 0.009) := by
  norm_num [Joint, P_S_claimed, CP_Radio, lookupA, restrict, Factor.names, jointScope]

/-- C1 (amended): for every pair of Factors with matching Domains on shared
names, `Joint(A,B)` maps every full assignment of the result scope to the
product of the operands' values at its restrictions to their scopes; and for
the storm prior with P(S=true) = 0.01, P(S=false) = 0.99 (the values the
recorded notebook tables pin) together with `CP_Radio`, the joint has exactly
the values 0.009, 0.001, 0.099, 0.891. -/
theorem C1_joint_pointwise_product :
    (∀ (V : Type) (A B : Factor V), jointOK A B →
      ∀ a ∈ tuples (Joint A B).scope,
        (Joint A B).val (lookupA a)
          = A.val (lookupA (a.filter (fun p => decide (p.1 ∈ A.names))))
            * B.val (lookupA (a.filter (fun p => decide (p.1 ∈ B.names))))) ∧
    (Joint P_Sturm CP_Radio).val (lookupA [("S", true), ("R", true)]) = 0.009 ∧
    (Joint P_Sturm CP_Radio).val (lookupA [("S", true), ("R", false)]) = 0.001 ∧
    (Joint P_Sturm CP_Radio).val (lookupA [("S", false), ("R", true)]) = 0.099 ∧
    (Joint P_Sturm CP_Radio).val (lookupA [("S", false), ("R", false)]) = 0.891 := by
  refine ⟨?_, ?_, ?_, ?_, ?_⟩
  · intro V A B _ a _
    rw [joint_val, restrict_lookupA, restrict_lookupA]
  all_goals
    simp [Joint, P_Sturm, CP_Radio, lookupA, restrict, Factor.names, jointScope]
    norm_num

/-- Witness for C1's theorem: its general part applied to the concrete pair
(`P_Sturm`, `CP_Radio`) at the assignment (S=true, R=true). -/
theorem C1_witness :
    (Joint P_Sturm CP_Radio).val (lookupA [("S", true), ("R", true)])
      = P_Sturm.val (lookupA ([("S", true), ("R", true)].filter
          (fun p => decide (p.1 ∈ P_Sturm.names))))
        * CP_Radio.val (lookupA ([("S", true), ("R", true)].filter
          (fun p => decide (p.1 ∈ CP_Radio.names)))) :=
  C1_joint_pointwise_product.1 Bool P_Sturm CP_Radio (by decide)
    [("S", true), ("R", true)] (by decide)

/-- C4: for well-formed evidence, the modelled `Observe` fails with
`ZeroEvidence` exactly when the sum of the factor's values over the
assignments matching the evidence is zero (and in that case it returns no
table at all — in particular no NaN-valued or zero-filled one). -/
theorem C4_zero_evidence_iff :
    ∀ (V : Type) [DecidableEq V] (F : Factor V) (ev : List (VarName × V)),
      (∀ p ∈ ev, p.1 ∈ F.names) → (∀ p ∈ ev, p.2 ∈ F.domOf p.1) →
      (Observe F ev = .error .zeroEvidence ↔ evZ F ev = 0) := by
  intro V _ F ev h1 h2
  exact observe_zero_iff F ev h1 h2

/-- Witness for C4: conditioning `P_Null` on the zero-probability evidence
X=true. -/
theorem C4_witness :
    Observe P_Null [("X", true)] = .error .zeroEvidence
      ↔ evZ P_Null [("X", true)] = 0 :=
  C4_zero_evidence_iff Bool P_Null [("X", true)] (by decide) (by decide)

/-- C5 (counterexample): in the recorded cell-18 run of the notebook the
operands of `Joint` are scoped (D) and (W), so the claim's rule "first
operand's scope, then the second's new variables" yields (D, W); the recorded
printed scope of the result is (W, D). -/
theorem C5_counterexample :
    ¬ (P_postA_DW_recordedNames = (Joint M_postA_D M_postA_W).names) := by
  decide

/-- C5 (amended): the scope of `Joint(A,B)` consists of exactly the union of
the operands' scope variables, each exactly once when the inputs are
duplicate-free; the order of the result scope is an implementation
convention, not a guaranteed contract (the recorded run prints (W, D) for
operands scoped (D) and (W)). -/
theorem C5_joint_scope_union :
    ∀ (V : Type) (A B : Factor V), A.names.Nodup → B.names.Nodup →
      ((Joint A B).names.Nodup ∧
       ∀ n, n ∈ (Joint A B).names ↔ (n ∈ A.names ∨ n ∈ B.names)) := by
  intro V A B hA hB
  refine ⟨?_, mem_joint_names_iff A B⟩
  rw [joint_names, List.nodup_append]
  refine ⟨hA, hB.filter _, ?_⟩
  intro n hn hnf
  have := List.of_mem_filter hnf
  rw [decide_eq_true_eq] at this
  exact this hn

/-- Witness for C5's amended theorem at the concrete pair
(`P_Sturm`, `CP_Radio`). -/
theorem C5_witness :
    (Joint P_Sturm CP_Radio).names.Nodup ∧
      ∀ n, n ∈ (Joint P_Sturm CP_Radio).names
        ↔ (n ∈ P_Sturm.names ∨ n ∈ CP_Radio.names) :=
  C5_joint_scope_union Bool P_Sturm CP_Radio (by decide) (by decide)

/-- C6: the scope of `Marginal(F, retained)` is a sublist of F's scope order
(the retained variables keep their original relative order) and contains
exactly the retained names. -/
theorem C6_marginal_scope_order :
    ∀ (V : Type) [DecidableEq V] (F : Factor V) (keep : List VarName),
      (∀ n ∈ keep, n ∈ F.names) →
      ((Marginal F keep).names.Sublist F.names ∧
       ∀ n, n ∈ (Marginal F keep).names ↔ n ∈ keep) := by
  intro V _ F keep hk
  constructor
  · exact (List.filter_sublist F.scope).map Prod.fst
  · intro n
    simp only [Marginal, Factor.names, List.mem_map, List.mem_filter, decide_eq_true_eq]
    constructor
    · rintro ⟨p, ⟨_, hpk⟩, rfl⟩
      exact hpk
    · intro hn
      have hnn := hk n hn
      rw [Factor.names, List.mem_map] at hnn
      obtain ⟨p, hp, rfl⟩ := hnn
      exact ⟨p, ⟨hp, hn⟩, rfl⟩

/-- Witness for C6 at `Marginal(Joint(P_Sturm, CP_Radio), ['R'])`. -/
theorem C6_witness :
    ((Marginal (Joint P_Sturm CP_Radio) ["R"]).names.Sublist
        (Joint P_Sturm CP_Radio).names) ∧
      ∀ n, n ∈ (Marginal (Joint P_Sturm CP_Radio) ["R"]).names
        ↔ n ∈ (["R"] : List VarName) :=
  C6_marginal_scope_order Bool (Joint P_Sturm CP_Radio) ["R"] (by decide)

/-- C2: `Marginal(F, retained)` maps each full assignment of the retained
variables to the sum of F's values over all full assignments of F's scope
that restrict to it; concretely, marginalizing the recorded two-variable
joint onto R yields R=true: 0.108 and R=false: 0.892. -/
theorem C2_marginal_grouped_sum :
    (∀ (V : Type) [DecidableEq V] (F : Factor V) (keep : List VarName),
       F.WF → (∀ n ∈ keep, n ∈ F.names) →
       ∀ a ∈ tuples (Marginal F keep).scope,
         (Marginal F keep).val (lookupA a)
           = (((tuples F.scope).filter
                (fun c => decide (c.filter (fun p => decide (p.1 ∈ keep)) = a))).map
               (fun c => F.val (lookupA c))).sum) ∧
    (Marginal (Joint P_Sturm CP_Radio) ["R"]).val (lookupA [("R", true)]) = 0.108 ∧
    (Marginal (Joint P_Sturm CP_Radio) ["R"]).val (lookupA [("R", false)]) = 0.892 := by
  refine ⟨?_, ?_, ?_⟩
  · intro V _ F keep hWF _ a ha
    exact marginal_val F keep hWF ha
  all_goals
    simp [Marginal, Joint, P_Sturm, CP_Radio, lookupA, restrict, Factor.names, jointScope,
      tuples, List.filter_cons, List.all_cons, List.all_nil]
    norm_num

/-- Witness for C2's theorem: its general part applied to the recorded
two-variable joint, retaining R, at the assignment R=true. -/
theorem C2_witness :
    (Marginal (Joint P_Sturm CP_Radio) ["R"]).val (lookupA [("R", true)])
      = (((tuples (Joint P_Sturm CP_Radio).scope).filter
           (fun c => decide (c.filter
             (fun p => decide (p.1 ∈ (["R"] : List VarName))) = [("R", true)]))).map
          (fun c => (Joint P_Sturm CP_Radio).val (lookupA c))).sum :=
  C2_marginal_grouped_sum.1 Bool (Joint P_Sturm CP_Radio) ["R"] (by decide) (by decide)
    [("R", true)] (by decide)

/-- The normalizing constant of conditioning the recorded two-variable joint
on S=true is 0.01, in particular nonzero. -/
theorem evZ_joint_S_true : evZ (Joint P_Sturm CP_Radio) [("S", true)] ≠ 0 := by
  simp [evZ, Joint, P_Sturm, CP_Radio, lookupA, restrict, Factor.names, jointScope,
    tuples, List.filter_cons, List.all_cons, List.all_nil]
  norm_num

/-- C3: for well-formed evidence with nonzero normalizing constant Z,
`Observe(F, evidence)` succeeds with scope = F's scope minus the evidence
variables and value = F's value at the assignment extended with the evidence,
divided by Z; concretely, observing S=true in the recorded two-variable joint
yields exactly R=true: 0.9 and R=false: 0.1. -/
theorem C3_observe_posterior :
    (∀ (V : Type) [DecidableEq V] (F : Factor V) (ev : List (VarName × V)),
       (∀ p ∈ ev, p.1 ∈ F.names) → (∀ p ∈ ev, p.2 ∈ F.domOf p.1) → evZ F ev ≠ 0 →
       ∃ G, Observe F ev = .ok G ∧
         G.scope = F.scope.filter (fun p => decide (p.1 ∉ ev.map Prod.fst)) ∧
         ∀ m : Assignment V,
           G.val m = F.val (fun n => if n ∈ ev.map Prod.fst then lookupA ev n else m n)
             / evZ F ev) ∧
    (Observe (Joint P_Sturm CP_Radio) [("S", true)]).toOption.map Factor.scope
      = some [("R", [true, false])] ∧
    (Observe (Joint P_Sturm CP_Radio) [("S", true)]).toOption.map
       (fun G => G.val (lookupA [("R", true)])) = some 0.9 ∧
    (Observe (Joint P_Sturm CP_Radio) [("S", true)]).toOption.map
       (fun G => G.val (lookupA [("R", false)])) = some 0.1 := by
  refine ⟨?_, ?_, ?_, ?_⟩
  · intro V _ F ev h1 h2 hZ
    exact observe_ok F ev h1 h2 hZ
  all_goals
    simp [Observe, evZ, Joint, P_Sturm, CP_Radio, lookupA, restrict, Factor.names,
      Factor.domOf, jointScope, tuples, List.filter_cons, List.all_cons, List.all_nil,
      Except.toOption]
    try norm_num

/-- Witness for C3's theorem: its general part applied to the recorded
two-variable joint with evidence S=true. -/
theorem C3_witness :
    ∃ G, Observe (Joint P_Sturm CP_Radio) [("S", true)] = .ok G ∧
      G.scope = (Joint P_Sturm CP_Radio).scope.filter
        (fun p => decide (p.1 ∉ ([("S", true)] : List (VarName × Bool)).map Prod.fst)) ∧
      ∀ m : Assignment Bool,
        G.val m = (Joint P_Sturm CP_Radio).val
            (fun n => if n ∈ ([("S", true)] : List (VarName × Bool)).map Prod.fst
              then lookupA [("S", true)] n else m n)
          / evZ (Joint P_Sturm CP_Radio) [("S", true)] :=
  C3_observe_posterior.1 Bool (Joint P_Sturm CP_Radio) [("S", true)]
    (by decide) (by decide) evZ_joint_S_true

/-- C7: marginalizing onto the full scope returns the factor unchanged (same
scope, same value at every full assignment); marginalizing onto the empty set
returns a zero-scope factor whose single value is the sum of all values,
equal to 1 when the factor is probability-normalized. -/
theorem C7_marginal_full_and_empty :
    ∀ (V : Type) [DecidableEq V] (F : Factor V), F.WF →
      ((Marginal F F.names).scope = F.scope ∧
       (∀ a ∈ tuples F.scope,
          (Marginal F F.names).val (lookupA a) = F.val (lookupA a)) ∧
       (Marginal F []).scope = [] ∧
       (∀ m : Assignment V,
          (Marginal F []).val m = (F.entries.map Prod.snd).sum) ∧
       ((F.entries.map Prod.snd).sum = 1 →
          ∀ m : Assignment V, (Marginal F []).val m = 1)) := by
  intro V _ F hWF
  have hscope : (Marginal F F.names).scope = F.scope := by
    simp only [Marginal]
    rw [List.filter_eq_self]
    intro p hp
    rw [decide_eq_true_eq, Factor.names]
    exact List.mem_map.mpr ⟨p, hp, rfl⟩
  have hempty : ∀ m : Assignment V,
      (Marginal F []).val m = (F.entries.map Prod.snd).sum := by
    intro m
    simp only [Marginal, entries_snd]
    have hall : ∀ c ∈ tuples F.scope,
        ((c.filter (fun p => decide (p.1 ∈ ([] : List VarName)))).all
          (fun p => decide (m p.1 = some p.2))) = (fun _ => true) c := by
      intro c _
      have hnil : c.filter (fun p => decide (p.1 ∈ ([] : List VarName))) = [] := by
        rw [List.filter_eq_nil_iff]
        intro q _
        simp
      rw [hnil]
      rfl
    rw [List.filter_congr hall, List.filter_true]
  refine ⟨hscope, ?_, ?_, hempty, ?_⟩
  · intro a ha
    have ha' : a ∈ tuples (Marginal F F.names).scope := by
      rw [hscope]
      exact ha
    rw [marginal_val F F.names hWF ha']
    have hfc : ∀ c ∈ tuples F.scope,
        (decide (c.filter (fun p => decide (p.1 ∈ F.names)) = a)) = (decide (c = a)) := by
      intro c hc
      have hcc : c.filter (fun p => decide (p.1 ∈ F.names)) = c := by
        rw [List.filter_eq_self]
        intro q hq
        rw [decide_eq_true_eq, Factor.names, ← fst_of_full (mem_tuples_iff.mp hc)]
        exact List.mem_map.mpr ⟨q, hq, rfl⟩
      rw [hcc]
    rw [List.filter_congr hfc, filter_eq_single (tuples_nodup hWF.2) ha]
    simp
  · simp only [Marginal]
    rw [List.filter_eq_nil_iff]
    intro p _
    simp
  · intro hsum m
    rw [hempty m, hsum]

/-- Witness for C7 at the concrete factor `CP_Radio`. -/
theorem C7_witness :
    (Marginal CP_Radio CP_Radio.names).scope = CP_Radio.scope ∧
      (∀ a ∈ tuples CP_Radio.scope,
        (Marginal CP_Radio CP_Radio.names).val (lookupA a) = CP_Radio.val (lookupA a)) ∧
      (Marginal CP_Radio []).scope = [] ∧
      (∀ m : Assignment Bool,
        (Marginal CP_Radio []).val m = (CP_Radio.entries.map Prod.snd).sum) ∧
      ((CP_Radio.entries.map Prod.snd).sum = 1 →
        ∀ m : Assignment Bool, (Marginal CP_Radio []).val m = 1) :=
  C7_marginal_full_and_empty Bool CP_Radio (by decide)

/-- C8: for factors pairwise accepted by Joint, the two associations
`Joint(Joint(A,B),C)` and `Joint(A,Joint(B,C))` have the same scope as a set
of names and assign the same value to every assignment (assignments are
name-to-value mappings, so comparison is by each variable's value, not by
column order). -/
theorem C8_joint_assoc :
    ∀ (V : Type) (A B C : Factor V), jointOK A B → jointOK B C → jointOK A C →
      ((∀ n, n ∈ (Joint (Joint A B) C).names ↔ n ∈ (Joint A (Joint B C)).names) ∧
       ∀ m : Assignment V, (Joint (Joint A B) C).val m = (Joint A (Joint B C)).val m) := by
  intro V A B C _ _ _
  constructor
  · intro n
    rw [mem_joint_names_iff, mem_joint_names_iff, mem_joint_names_iff,
      mem_joint_names_iff, or_assoc]
  · intro m
    rw [joint_val, joint_val, joint_val, joint_val,
      restrict_restrict (subset_joint_left A B) m,
      restrict_restrict (subset_joint_right A B) m,
      restrict_restrict (subset_joint_left B C) m,
      restrict_restrict (subset_joint_right B C) m,
      mul_assoc]

/-- Witness for C8 at the concrete triple (`P_Dieb`, `P_Sturm`, `CP_Radio`). -/
theorem C8_witness :
    (∀ n, n ∈ (Joint (Joint P_Dieb P_Sturm) CP_Radio).names
        ↔ n ∈ (Joint P_Dieb (Joint P_Sturm CP_Radio)).names) ∧
      ∀ m : Assignment Bool,
        (Joint (Joint P_Dieb P_Sturm) CP_Radio).val m
          = (Joint P_Dieb (Joint P_Sturm CP_Radio)).val m :=
  C8_joint_assoc Bool P_Dieb P_Sturm CP_Radio (by decide) (by decide) (by decide)

/-- C9: `entries()` pairs each enumerated assignment with the factor's value
there; it enumerates exactly the full assignments of the scope, each exactly
once, and each full assignment appears at its canonical mixed-radix rank —
first scope variable slowest, last fastest, each Domain in declared order;
its length is the product of the domain sizes.  (Restarting reproduces the
same list because `entries` is a pure function of the factor.) -/
theorem C9_entries_canonical :
    ∀ (V : Type) [DecidableEq V] (F : Factor V), F.WF →
      ((∀ e ∈ F.entries, e.2 = F.val (lookupA e.1)) ∧
       (∀ a, a ∈ F.entries.map Prod.fst ↔ IsFull F.scope a) ∧
       (F.entries.map Prod.fst).Nodup ∧
       (∀ a, IsFull F.scope a → posIn a (F.entries.map Prod.fst) = rank F.scope a) ∧
       F.entries.length = sizeProd F.scope) := by
  intro V _ F hWF
  refine ⟨?_, ?_, ?_, ?_, ?_⟩
  · intro e he
    simp only [Factor.entries, List.mem_map] at he
    obtain ⟨a, _, rfl⟩ := he
    rfl
  · intro a
    rw [entries_fst]
    exact mem_tuples_iff
  · rw [entries_fst]
    exact tuples_nodup hWF.2
  · intro a ha
    rw [entries_fst]
    exact posIn_tuples ha
  · rw [Factor.entries, List.length_map]
    exact tuples_length F.scope

/-- Witness for C9 at the concrete factor `CP_Radio`. -/
theorem C9_witness :
    (∀ e ∈ CP_Radio.entries, e.2 = CP_Radio.val (lookupA e.1)) ∧
      (∀ a, a ∈ CP_Radio.entries.map Prod.fst ↔ IsFull CP_Radio.scope a) ∧
      (CP_Radio.entries.map Prod.fst).Nodup ∧
      (∀ a, IsFull CP_Radio.scope a →
        posIn a (CP_Radio.entries.map Prod.fst) = rank CP_Radio.scope a) ∧
      CP_Radio.entries.length = sizeProd CP_Radio.scope :=
  C9_entries_canonical Bool CP_Radio (by decide)

/-- C10: calling a factor with keyword-named values consults the table at the
induced name-to-value mapping, so the result is independent of the order the
names are supplied in; concretely `CP_Radio(S=True, R=True)` and
`CP_Radio(R=True, S=True)` both return 0.9 although CP_Radio's scope order is
(R, S), whose canonical table is (0.9, 0.1, 0.1, 0.9). -/
theorem C10_keyword_call_order_independent :
    (∀ (V : Type) (F : Factor V) (l l' : List (VarName × V)),
       l.Perm l' → (l.map Prod.fst).Nodup → F.callKW l = F.callKW l') ∧
    CP_Radio.callKW [("S", true), ("R", true)] = 0.9 ∧
    CP_Radio.callKW [("R", true), ("S", true)] = 0.9 ∧
    CP_Radio.names = ["R", "S"] ∧
    CP_Radio.entries.map Prod.snd = [0.9, 0.1, 0.1, 0.9] := by
  refine ⟨?_, ?_, ?_, rfl, ?_⟩
  · intro V F l l' hperm hnd
    simp only [Factor.callKW]
    rw [lookupA_perm hperm hnd]
  all_goals
    simp [Factor.callKW, Factor.entries, CP_Radio, lookupA, tuples]
    try norm_num

/-- Witness for C10's theorem: its general part applied to `CP_Radio` and the
two orderings of the keyword list. -/
theorem C10_witness :
    CP_Radio.callKW [("S", true), ("R", true)]
      = CP_Radio.callKW [("R", true), ("S", true)] :=
  C10_keyword_call_order_independent.1 Bool CP_Radio
    [("S", true), ("R", true)] [("R", true), ("S", true)]
    (List.Perm.swap ("R", true) ("S", true) []) (by decide)

end Pygmalion
